import Mathlib

/-!
Shallow embedding of the gocopilot conversation/tool-execution core:
bounded conversation memory (`internal/agent` Memory), the tool registry
(`internal/tools` Registry), the concurrent tool executor
(`internal/agent/executor.go` ToolExecutor), the historical orchestrator
loop's tool handling (`internal/agent/agent.go` Agent.Run), and the
reasoning driver (`internal/agent/reasoning.go` ReasoningChain).

Machine integers from the Go source (`int`) are embedded as `Int`.
Go slices become `List`s; the Go `map[string]T` in Registry / toolIndex
becomes an association list with `List.lookup` (the code only inserts
absent keys, so keys stay distinct). Concurrency in the executor joins on
a full barrier and stores results positionally, so its observable result
is the sequential positional map embedded here. Cancellation (`ctx.Done`)
is embedded as a boolean flag observed by every execution unit.
-/

namespace GoCopilot

/-- Go `strings.Contains s sub`: `sub` occurs as a contiguous substring. -/
def strContains (s sub : String) : Bool :=
  decide (sub.data <:+: s.data)

/-- Go `strings.ToLower`: lower-case every rune. -/
def strToLower (s : String) : String :=
  ⟨s.data.map Char.toLower⟩

/-- Go `strings.TrimSpace`: strip leading and trailing whitespace. -/
def strTrim (s : String) : String :=
  ⟨((s.data.dropWhile Char.isWhitespace).reverse.dropWhile Char.isWhitespace).reverse⟩

/-- Go `len` on a string: its UTF-8 byte length. -/
def strUtf8Len (s : String) : Nat :=
  (s.data.map Char.utf8Size).sum

/-! ## Data model: tool calls, messages -/

/-- One tool call of an assistant turn, as the executor's `switch
toolCallUnion.AsAny()` sees it: a function call (id, name, JSON argument
payload), a custom tool call (id, name), or any other variant (id only). -/
inductive ToolCall where
  | function (id name arguments : String)
  | custom (id name : String)
  | other (id : String)
deriving DecidableEq, Repr

/-- The `ID` field carried by every tool-call union variant. -/
def ToolCall.callId : ToolCall → String
  | .function id _ _ => id
  | .custom id _ => id
  | .other id => id

/-- A role-tagged conversation entry (`ChatCompletionMessageParamUnion`). -/
inductive Message where
  | system (content : String)
  | user (content : String)
  | assistant (content : String) (toolCalls : List ToolCall)
  | tool (content : String) (toolCallId : String)
deriving DecidableEq, Repr

/-! ## Bounded Memory (`Memory` in the agent package) -/

/-- Conversation memory: fixed system prefix, rolling history, capacity. -/
structure Memory where
  system : List Message
  history : List Message
  maxHistory : Int
deriving Repr

/-- `NewMemory`: zero-valued memory; the capacity is stored only when
strictly positive (a non-positive argument leaves the zero value 0). -/
def NewMemory (maxHistory : Int) : Memory :=
  { system := [], history := [], maxHistory := if maxHistory > 0 then maxHistory else 0 }

/-- `trimLocked`: drop oldest history entries until the capacity bound
holds; a non-positive capacity disables trimming. -/
def Memory.trimLocked (m : Memory) : Memory :=
  if m.maxHistory ≤ 0 then m
  else if (m.history.length : Int) ≤ m.maxHistory then m
  else { m with history := m.history.drop (m.history.length - m.maxHistory.toNat) }

/-- `Append`: add one message to history, then trim. -/
def Memory.Append (m : Memory) (message : Message) : Memory :=
  Memory.trimLocked { m with history := m.history ++ [message] }

/-- `AppendMany`: add a batch to history, then trim; empty batch returns
without touching the state. -/
def Memory.AppendMany (m : Memory) (messages : List Message) : Memory :=
  if messages.isEmpty then m
  else Memory.trimLocked { m with history := m.history ++ messages }

/-- `SetSystemMessages`: replace the system prefix wholesale. -/
def Memory.SetSystemMessages (m : Memory) (messages : List Message) : Memory :=
  if messages.isEmpty then { m with system := [] }
  else { m with system := messages }

/-- `ResetHistory`: clear history only. -/
def Memory.ResetHistory (m : Memory) : Memory :=
  { m with history := [] }

/-- `Context`: allocate a fresh buffer of length `|system| + |history|`
and copy the system prefix then the history into it (the Go `make` +
two `copy` calls, expressed index by index). -/
def Memory.Context (m : Memory) : List Message :=
  if m.system.length + m.history.length = 0 then []
  else List.ofFn fun i : Fin (m.system.length + m.history.length) =>
    if h : i.val < m.system.length then m.system.get ⟨i.val, h⟩
    else m.history.get ⟨i.val - m.system.length, by
      have hi := i.isLt; omega⟩

/-- `MessageCount`: total entries across both parts. -/
def Memory.MessageCount (m : Memory) : Nat :=
  m.system.length + m.history.length

/-! ### Memory lemmas -/

theorem Memory.trimLocked_system (m : Memory) : m.trimLocked.system = m.system := by
  unfold Memory.trimLocked
  split <;> [rfl; skip]
  split <;> rfl

theorem Memory.trimLocked_maxHistory (m : Memory) :
    m.trimLocked.maxHistory = m.maxHistory := by
  unfold Memory.trimLocked
  split <;> [rfl; skip]
  split <;> rfl

theorem Memory.append_maxHistory (m : Memory) (x : Message) :
    (m.Append x).maxHistory = m.maxHistory := by
  unfold Memory.Append
  rw [Memory.trimLocked_maxHistory]

theorem Memory.append_system (m : Memory) (x : Message) :
    (m.Append x).system = m.system := by
  unfold Memory.Append
  rw [Memory.trimLocked_system]

/-- With a non-positive capacity, trimming is the identity. -/
theorem Memory.trimLocked_of_nonpos (m : Memory) (h : m.maxHistory ≤ 0) :
    m.trimLocked = m := by
  unfold Memory.trimLocked
  simp [h]

/-- With a positive capacity `c`, one `Append` leaves exactly the last
`min (|history| + 1) c` entries — uniformly, the suffix obtained by
dropping `|history| + 1 - c` entries (truncated subtraction). -/
theorem Memory.append_history (m : Memory) (x : Message) (c : Int)
    (hm : m.maxHistory = c) (hc : 0 < c) :
    (m.Append x).history =
      (m.history ++ [x]).drop ((m.history.length + 1) - c.toNat) := by
  unfold Memory.Append Memory.trimLocked
  have hc0 : ¬ (m.maxHistory ≤ 0) := by omega
  simp only [hc0, if_false]
  split
  · rename_i hle
    simp only [List.length_append, List.length_singleton] at hle
    have : m.history.length + 1 - c.toNat = 0 := by omega
    simp [this]
  · rename_i hgt
    simp only [List.length_append, List.length_singleton] at hgt ⊢
    have : m.history.length + 1 - m.maxHistory.toNat
        = m.history.length + 1 - c.toNat := by omega
    rw [this]

/-- One `Append` under a positive capacity keeps the history within
the capacity bound, whatever the incoming history length. -/
theorem Memory.append_length_le (m : Memory) (x : Message) (c : Int)
    (hm : m.maxHistory = c) (hc : 0 < c) :
    (m.Append x).history.length ≤ c.toNat := by
  rw [Memory.append_history m x c hm hc]
  simp only [List.length_drop, List.length_append, List.length_singleton]
  omega

/-- Folding `Append` over a batch, starting from a within-capacity state
under capacity `c > 0`, leaves exactly the last `min (|history| + n) c`
entries of `history ++ batch`. -/
theorem Memory.foldl_append_history (c : Int) (hc : 0 < c) :
    ∀ (msgs : List Message) (m : Memory), m.maxHistory = c →
      m.history.length ≤ c.toNat →
      (msgs.foldl Memory.Append m).history =
        (m.history ++ msgs).drop ((m.history.length + msgs.length) - c.toNat) := by
  intro msgs
  induction msgs with
  | nil =>
    intro m hm hlen
    have h0 : m.history.length - c.toNat = 0 := by omega
    simp [h0]
  | cons a rest ih =>
    intro m hm hlen
    have hstep := Memory.append_history m a c hm hc
    have hmax : (m.Append a).maxHistory = c := by
      rw [Memory.append_maxHistory]; exact hm
    have hble := Memory.append_length_le m a c hm hc
    have ihm := ih (m.Append a) hmax hble
    set n := m.history.length with hn
    set d := n + 1 - c.toNat with hd
    have hdlen : d ≤ (m.history ++ [a]).length := by
      simp only [List.length_append, List.length_singleton]
      omega
    have hlen1 : (m.Append a).history.length = n + 1 - d := by
      rw [hstep]
      simp only [List.length_drop, List.length_append, List.length_singleton]
    rw [List.foldl_cons, ihm, hstep, ← List.drop_append_of_le_length hdlen,
      List.drop_drop]
    have hX : (m.history ++ [a]) ++ rest = m.history ++ a :: rest := by
      simp
    rw [hX]
    have hlen2 : (List.drop d (m.history ++ [a])).length = n + 1 - d := by
      simp only [List.length_drop, List.length_append, List.length_singleton]
    rw [hlen2]
    have harr : d + ((n + 1 - d) + rest.length - c.toNat)
        = n + (a :: rest).length - c.toNat := by
      simp only [List.length_cons]
      omega
    rw [harr]

/-- `AppendMany` on a nonempty batch under a positive capacity leaves
the suffix of `history ++ batch` dropping down to the capacity. -/
theorem Memory.appendMany_history (m : Memory) (msgs : List Message) (c : Int)
    (hm : m.maxHistory = c) (hc : 0 < c) (hne : msgs ≠ []) :
    (m.AppendMany msgs).history =
      (m.history ++ msgs).drop ((m.history.length + msgs.length) - c.toNat) := by
  unfold Memory.AppendMany Memory.trimLocked
  have hne' : ¬ msgs.isEmpty := by simpa [List.isEmpty_iff] using hne
  have hc0 : ¬ (m.maxHistory ≤ 0) := by omega
  simp only [hne', Bool.false_eq_true, if_false, hc0]
  split
  · rename_i hle
    simp only [List.length_append] at hle
    have : m.history.length + msgs.length - c.toNat = 0 := by omega
    simp [this]
  · rename_i hgt
    simp only [List.length_append] at hgt ⊢
    have : m.history.length + msgs.length - m.maxHistory.toNat
        = m.history.length + msgs.length - c.toNat := by omega
    rw [this]

/-- With a non-positive capacity, one `Append` just appends. -/
theorem Memory.append_history_of_nonpos (m : Memory) (x : Message)
    (h : m.maxHistory ≤ 0) :
    (m.Append x).history = m.history ++ [x] := by
  unfold Memory.Append
  have ht := Memory.trimLocked_of_nonpos { m with history := m.history ++ [x] } h
  rw [ht]

/-- With a non-positive capacity, folding `Append` appends everything. -/
theorem Memory.foldl_append_history_of_nonpos :
    ∀ (msgs : List Message) (m : Memory), m.maxHistory ≤ 0 →
      (msgs.foldl Memory.Append m).history = m.history ++ msgs := by
  intro msgs
  induction msgs with
  | nil => intro m _; simp
  | cons a rest ih =>
    intro m hm
    have hmax : (m.Append a).maxHistory ≤ 0 := by
      rw [Memory.append_maxHistory]; exact hm
    rw [List.foldl_cons, ih (m.Append a) hmax,
      Memory.append_history_of_nonpos m a hm]
    simp

/-- With a non-positive capacity, `AppendMany` just appends. -/
theorem Memory.appendMany_history_of_nonpos (m : Memory) (msgs : List Message)
    (h : m.maxHistory ≤ 0) :
    (m.AppendMany msgs).history = m.history ++ msgs := by
  unfold Memory.AppendMany
  split
  · rename_i he
    rw [List.isEmpty_iff] at he
    simp [he]
  · have ht := Memory.trimLocked_of_nonpos { m with history := m.history ++ msgs } h
    rw [ht]

/-- When the result fits under the capacity (or the capacity is off),
one `Append` does not drop anything. -/
theorem Memory.append_history_no_trim (m : Memory) (x : Message)
    (h : m.maxHistory ≤ 0 ∨ (m.history.length + 1 : Int) ≤ m.maxHistory) :
    (m.Append x).history = m.history ++ [x] := by
  rcases h with h | h
  · exact Memory.append_history_of_nonpos m x h
  · unfold Memory.Append Memory.trimLocked
    split
    · rfl
    · split
      · rfl
      · rename_i hgt
        simp only [List.length_append, List.length_singleton] at hgt
        omega

/-- When the whole batch fits under the capacity (or the capacity is
off), folding `Append` over it drops nothing. -/
theorem Memory.foldl_append_history_no_trim :
    ∀ (msgs : List Message) (m : Memory),
      (m.maxHistory ≤ 0 ∨ (m.history.length + msgs.length : Int) ≤ m.maxHistory) →
      (msgs.foldl Memory.Append m).history = m.history ++ msgs := by
  intro msgs
  induction msgs with
  | nil => intro m _; simp
  | cons a rest ih =>
    intro m hm
    have hstep : (m.Append a).history = m.history ++ [a] := by
      apply Memory.append_history_no_trim
      rcases hm with h | h
      · exact Or.inl h
      · right
        simp only [List.length_cons] at h
        push_cast at h ⊢
        omega
    have hrec := ih (m.Append a) ?_
    · rw [List.foldl_cons, hrec, hstep]
      simp
    · rcases hm with h | h
      · exact Or.inl (by rw [Memory.append_maxHistory]; exact h)
      · right
        rw [Memory.append_maxHistory, hstep]
        simp only [List.length_append, List.length_singleton,
          List.length_cons, List.length_nil] at h ⊢
        push_cast at h ⊢
        omega

/-- The context buffer, copied index by index, is `system ++ history`. -/
theorem Memory.context_eq (m : Memory) :
    m.Context = m.system ++ m.history := by
  unfold Memory.Context
  split
  · rename_i h0
    have hs : m.system = [] := by
      have := List.length_eq_zero.mp (by omega : m.system.length = 0)
      exact this
    have hh : m.history = [] := by
      have := List.length_eq_zero.mp (by omega : m.history.length = 0)
      exact this
    simp [hs, hh]
  · apply List.ext_getElem
    · simp
    · intro i h1 h2
      simp only [List.getElem_ofFn]
      split
      · rename_i hlt
        rw [List.getElem_append_left hlt]
        simp [List.get_eq_getElem]
      · rename_i hge
        rw [List.getElem_append_right (by omega)]
        simp [List.get_eq_getElem]

/-! ## Tool Registry (`internal/tools`) -/

/-- A registered tool: name, description, input schema (opaque here), and
the executable function from the raw argument payload to output text or a
failure (the Go `(string, error)` pair, embedded as
`String × Option String`). -/
structure ToolDefinition where
  name : String
  description : String
  inputSchema : String
  function : String → String × Option String

/-- The registry's `map[string]ToolDefinition`, as an association list
(registration only ever inserts an absent name, so keys stay distinct). -/
structure Registry where
  tools : List (String × ToolDefinition)

/-- `NewRegistry`: empty map. -/
def NewRegistry : Registry := ⟨[]⟩

/-- `Get`: pure map lookup, `(tool, exists)` embedded as `Option`. -/
def Registry.Get (r : Registry) (name : String) : Option ToolDefinition :=
  r.tools.lookup name

/-- `Register`: error when the name is already present, otherwise store
the definition under its name. -/
def Registry.Register (r : Registry) (tool : ToolDefinition) : Except String Registry :=
  match r.tools.lookup tool.name with
  | some _ => .error ("tool '" ++ tool.name ++ "' already registered")
  | none => .ok ⟨(tool.name, tool) :: r.tools⟩

/-- `ExecuteTool`: resolve by name; a missing tool yields the
`tool '<name>' not found` failure, otherwise run the tool's function. -/
def Registry.ExecuteTool (r : Registry) (name arguments : String) :
    String × Option String :=
  match r.Get name with
  | none => ("", some ("tool '" ++ name ++ "' not found"))
  | some tool => tool.function arguments

/-! ## Tool Executor (`internal/agent/executor.go`) -/

/-- One per-call result slot (`tools.ToolResult`). -/
structure ToolResult where
  output : String
  error : Option String
  callID : String
deriving DecidableEq, Repr

/-- The executor: registry plus worker limit (the limit bounds
parallelism only; the joined, positionally-stored results below do not
depend on it). -/
structure ToolExecutor where
  registry : Registry
  maxWorkers : Int

/-- `NewToolExecutor`: a non-positive worker limit defaults to 5. -/
def NewToolExecutor (registry : Registry) (maxWorkers : Int) : ToolExecutor :=
  { registry, maxWorkers := if maxWorkers ≤ 0 then 5 else maxWorkers }

/-- The result recorded for one call: a function call first checks the
cancellation signal, then executes through the registry; a custom call
synthesizes its failure without dispatching; any other variant records
the unsupported-kind failure. -/
def ToolExecutor.execToolCall (e : ToolExecutor) (cancelled : Bool) :
    ToolCall → ToolResult
  | .function id name arguments =>
    if cancelled then
      { output := "tool execution cancelled: context canceled",
        error := some "context canceled", callID := id }
    else
      let r := e.registry.ExecuteTool name arguments
      { output := r.1, error := r.2, callID := id }
  | .custom id name =>
    { output := "unsupported custom tool call: " ++ name,
      error := some ("unsupported custom tool call: " ++ name), callID := id }
  | .other id =>
    { output := "unsupported tool call type",
      error := some "unsupported tool call type", callID := id }

/-- Result-to-message text: failures render as `Error: <message>`. -/
def toolResultContent (r : ToolResult) : String :=
  match r.error with
  | some e => "Error: " ++ e
  | none => r.output

/-- `ExecuteToolCalls`: empty batch short-circuits; otherwise one result
per call is recorded positionally (the join barrier), then results are
converted to tool messages in original call order, skipping any result
whose call id is empty; the function's own error is always `none`. -/
def ToolExecutor.ExecuteToolCalls (e : ToolExecutor) (cancelled : Bool)
    (toolCalls : List ToolCall) : List Message × Option String :=
  if toolCalls.isEmpty then ([], none)
  else
    let results := toolCalls.map (e.execToolCall cancelled)
    (results.filterMap fun r =>
      if r.callID = "" then none
      else some (Message.tool (toolResultContent r) r.callID), none)

/-- The recorded result always carries the originating call's id. -/
theorem ToolExecutor.execToolCall_callID (e : ToolExecutor) (cancelled : Bool)
    (tc : ToolCall) : (e.execToolCall cancelled tc).callID = tc.callId := by
  cases tc with
  | function id name arguments =>
    simp only [ToolExecutor.execToolCall, ToolCall.callId]
    split <;> rfl
  | custom id name => rfl
  | other id => rfl


/-! ## Orchestrator tool handling (`internal/agent/agent.go`, Agent.Run) -/

/-- An inference reply for one turn (`Choices[0].Message`): text content
and the attached tool calls. -/
structure Reply where
  content : String
  toolCalls : List ToolCall
deriving DecidableEq, Repr

/-- Messages appended while iterating the batch before the join: a
function call whose name is missing from the agent's tool index appends
its `Error: tool '<name>' not found` message immediately; custom and
unknown variants append their unsupported-kind error immediately;
a resolvable function call dispatches a worker and appends nothing yet. -/
def agentFirstPassMessages (index : List (String × ToolDefinition)) :
    List ToolCall → List Message
  | [] => []
  | .function id name _ :: rest =>
    match index.lookup name with
    | none => Message.tool ("Error: tool '" ++ name ++ "' not found") id ::
        agentFirstPassMessages index rest
    | some _ => agentFirstPassMessages index rest
  | .custom id name :: rest =>
    Message.tool ("Error: unsupported custom tool call: " ++ name) id ::
      agentFirstPassMessages index rest
  | .other id :: rest =>
    Message.tool "Error: unsupported tool call type" id ::
      agentFirstPassMessages index rest

/-- Messages appended after the join, in original call order: one per
dispatched (handled) function call, `Error: <message>` on failure and
the raw output on success. -/
def agentSecondPassMessages (index : List (String × ToolDefinition)) :
    List ToolCall → List Message
  | [] => []
  | .function id name arguments :: rest =>
    match index.lookup name with
    | none => agentSecondPassMessages index rest
    | some td =>
      let r := td.function arguments
      (match r.2 with
       | some e => Message.tool ("Error: " ++ e) id
       | none => Message.tool r.1 id) :: agentSecondPassMessages index rest
  | .custom _ _ :: rest => agentSecondPassMessages index rest
  | .other _ :: rest => agentSecondPassMessages index rest

/-- All tool messages one batch appends to memory, in append order. -/
def agentToolMessages (index : List (String × ToolDefinition))
    (calls : List ToolCall) : List Message :=
  agentFirstPassMessages index calls ++ agentSecondPassMessages index calls

/-- The memory mutation of one batch: each message is appended
individually through `Memory.Append`. -/
def agentProcessToolCalls (index : List (String × ToolDefinition))
    (mem : Memory) (calls : List ToolCall) : Memory :=
  (agentToolMessages index calls).foldl Memory.Append mem

/-- One pass of the orchestrator's inner loop body after the assistant
reply is appended: process the reply's tool calls, and report whether
the loop re-queries the model (a follow-up inference with the updated
`Context`) instead of completing the turn. -/
def agentInnerStep (index : List (String × ToolDefinition))
    (mem : Memory) (reply : Reply) : Memory × Bool :=
  if reply.toolCalls.isEmpty then (mem, false)
  else (agentProcessToolCalls index mem reply.toolCalls, true)

/-! ## Reasoning driver (`internal/agent/reasoning.go`) -/

/-- The four step classes. -/
inductive StepType where
  | thought
  | action
  | observation
  | final
deriving DecidableEq, Repr

/-- `analyzeStepType`: lexical classification of a reply, checked in
source order — final indicators first (including the no-tool-calls,
no-"let me" clause), then thought keywords, then presence of tool
calls, then observation. -/
def analyzeStepType (message : Reply) : StepType :=
  let content := strToLower message.content
  if strContains content "final answer" ||
     strContains content "answer:" ||
     strContains content "conclusion:" ||
     (message.toolCalls.length = 0 && !strContains content "let me") then
    .final
  else if strContains content "thinking" ||
     strContains content "thought:" ||
     strContains content "reason:" then
    .thought
  else if message.toolCalls.length > 0 then
    .action
  else
    .observation

/-- `isFinalAnswer`: the explicit final-answer lexical pattern. -/
def isFinalAnswer (content : String) : Bool :=
  let lowerContent := strToLower content
  strContains lowerContent "final answer" ||
    strContains lowerContent "answer:" ||
    strContains lowerContent "conclusion:"

/-- `isCompleteAnswer`: no action-indicating keyword and more than 50
bytes after trimming whitespace. -/
def isCompleteAnswer (content : String) : Bool :=
  let lowerContent := strToLower content
  let actionWords := ["let me", "i'll", "i will", "next", "now", "then",
    "search", "read", "execute", "run", "check", "verify"]
  if actionWords.any (fun w => strContains lowerContent w) then false
  else (strUtf8Len (strTrim content) > 50 : Bool)

/-- `NewReasoningChain`: a non-positive step budget defaults to 10. -/
def NewReasoningChainMaxSteps (maxSteps : Int) : Int :=
  if maxSteps ≤ 0 then 10 else maxSteps

/-- The step loop of `ReasoningChain.Execute`. `infer` is the abstract
inference client, indexed by how many inference calls have already been
made and fed the current context; the fuel counts the remaining loop
iterations (`maxSteps` at the top). Returns the Go `(answer, error)`
pair together with the number of inference invocations made. -/
def chainLoop (infer : Nat → List Message → Except String Reply)
    (e : ToolExecutor) (cancelled : Bool) (maxSteps : Int) :
    Memory → Nat → Nat → (String × Option String) × Nat
  | _, step, 0 =>
    (("", some ("reasoning chain exceeded maximum steps (" ++
      toString maxSteps ++ ")")), step)
  | mem, step, fuel + 1 =>
    match infer step mem.Context with
    | .error err =>
      (("", some ("reasoning step " ++ toString (step + 1) ++ " failed: " ++ err)),
        step + 1)
    | .ok reply =>
      let mem1 := mem.Append (Message.assistant reply.content reply.toolCalls)
      if reply.toolCalls.isEmpty then
        if isFinalAnswer reply.content then ((reply.content, none), step + 1)
        else if analyzeStepType reply = .final || isCompleteAnswer reply.content then
          ((reply.content, none), step + 1)
        else chainLoop infer e cancelled maxSteps mem1 (step + 1) fuel
      else
        let toolMsgs := (e.ExecuteToolCalls cancelled reply.toolCalls).1
        let mem2 := toolMsgs.foldl Memory.Append mem1
        chainLoop infer e cancelled maxSteps mem2 (step + 1) fuel

/-- `ReasoningChain.Execute`: reset history, append the user message,
then run up to `maxSteps` loop iterations. -/
def ReasoningChainExecute (maxSteps : Int)
    (infer : Nat → List Message → Except String Reply)
    (e : ToolExecutor) (cancelled : Bool) (mem : Memory) (userInput : String) :
    (String × Option String) × Nat :=
  let mem0 := (mem.ResetHistory).Append (Message.user userInput)
  chainLoop infer e cancelled maxSteps mem0 0 maxSteps.toNat


/-! ## Auxiliary facts shared by the claim theorems -/

/-- `NewMemory` keeps a positive capacity as given. -/
theorem NewMemory_maxHistory_of_pos (c : Int) (hc : 0 < c) :
    (NewMemory c).maxHistory = c := by
  unfold NewMemory
  simp only
  rw [if_pos hc]

/-- `NewMemory` stores 0 for a non-positive capacity. -/
theorem NewMemory_maxHistory_of_nonpos (c : Int) (hc : c ≤ 0) :
    (NewMemory c).maxHistory = 0 := by
  unfold NewMemory
  simp only
  rw [if_neg (by omega)]

/-- Folding `Append` never touches the system prefix. -/
theorem Memory.foldl_append_system :
    ∀ (msgs : List Message) (m : Memory),
      (msgs.foldl Memory.Append m).system = m.system := by
  intro msgs
  induction msgs with
  | nil => intro m; rfl
  | cons a rest ih =>
    intro m
    rw [List.foldl_cons, ih (m.Append a), Memory.append_system]

/-- A sample registered tool used by concrete witnesses. -/
def tdReadFile : ToolDefinition :=
  { name := "read_file", description := "Read the contents of a file",
    inputSchema := "object", function := fun _ => ("hello world", none) }

/-- A one-tool registry used by concrete witnesses. -/
def regOne : Registry := ⟨[("read_file", tdReadFile)]⟩

/-! ## Claim theorems -/

/-- C2: with capacity `c > 0`, every append/appendMany mutation keeps the
history within `c` messages, and appending `n` messages to a fresh memory
(one by one or as a batch) leaves exactly the last `min n c` of them —
for `n > c`, exactly the last `c`, in original relative order. -/
theorem memory_sliding_window (c : Int) (hc : 0 < c) (m : Memory)
    (hm : m.maxHistory = c) (x : Message) (msgs : List Message) :
    (m.Append x).history.length ≤ c.toNat ∧
    (m.history.length ≤ c.toNat → (m.AppendMany msgs).history.length ≤ c.toNat) ∧
    ((msgs.foldl Memory.Append (NewMemory c)).history
       = msgs.drop (msgs.length - c.toNat)) ∧
    (msgs ≠ [] → ((NewMemory c).AppendMany msgs).history
       = msgs.drop (msgs.length - c.toNat)) := by
  have hnewmax := NewMemory_maxHistory_of_pos c hc
  refine ⟨Memory.append_length_le m x c hm hc, ?_, ?_, ?_⟩
  · intro hlen
    by_cases hne : msgs = []
    · subst hne
      unfold Memory.AppendMany
      simpa using hlen
    · rw [Memory.appendMany_history m msgs c hm hc hne]
      simp only [List.length_drop, List.length_append]
      omega
  · rw [Memory.foldl_append_history c hc msgs (NewMemory c) hnewmax (by simp [NewMemory])]
    simp [NewMemory]
  · intro hne
    rw [Memory.appendMany_history (NewMemory c) msgs c hnewmax hc hne]
    simp [NewMemory]

/-- C2 witness: capacity 2, three appends keep exactly the last two. -/
theorem memory_sliding_window_witness :
    ([Message.user "a", Message.user "b", Message.user "c"].foldl
        Memory.Append (NewMemory 2)).history
      = [Message.user "b", Message.user "c"] := by
  have h := memory_sliding_window 2 (by norm_num) (NewMemory 2)
    (NewMemory_maxHistory_of_pos 2 (by norm_num)) (Message.user "z")
    [Message.user "a", Message.user "b", Message.user "c"]
  rw [h.2.2.1]
  rfl

/-- C8: `ResetHistory` empties the history and changes nothing else:
the system prefix and the capacity are exactly preserved. -/
theorem reset_history_frame (m : Memory) :
    (m.ResetHistory).system = m.system ∧
    (m.ResetHistory).history = [] ∧
    (m.ResetHistory).maxHistory = m.maxHistory :=
  ⟨rfl, rfl, rfl⟩

/-- C9: the context buffer freshly copied out of the state is exactly
`system ++ history` in that order; reading it is pure, so two reads of
the same state return equal sequences. -/
theorem context_is_snapshot (m : Memory) :
    m.Context = m.system ++ m.history :=
  Memory.context_eq m

/-- C10: a memory built with a non-positive capacity stores capacity 0
and never drops anything: appending (one by one or as a batch) keeps
every message in order. -/
theorem memory_unbounded_when_nonpos (c : Int) (hc : c ≤ 0) (msgs : List Message) :
    (NewMemory c).maxHistory = 0 ∧
    ((msgs.foldl Memory.Append (NewMemory c)).history = msgs) ∧
    (((NewMemory c).AppendMany msgs).history = msgs) := by
  have h0 := NewMemory_maxHistory_of_nonpos c hc
  refine ⟨h0, ?_, ?_⟩
  · rw [Memory.foldl_append_history_of_nonpos msgs (NewMemory c) (by omega)]
    simp [NewMemory]
  · rw [Memory.appendMany_history_of_nonpos (NewMemory c) msgs (by omega)]
    simp [NewMemory]

/-- C10 witness: capacity 0, three appends keep all three messages. -/
theorem memory_unbounded_when_nonpos_witness :
    ([Message.user "a", Message.user "b", Message.user "c"].foldl
        Memory.Append (NewMemory 0)).history
      = [Message.user "a", Message.user "b", Message.user "c"] :=
  (memory_unbounded_when_nonpos 0 (by norm_num) [Message.user "a", Message.user "b",
    Message.user "c"]).2.1

/-- C7: registration fails (with the duplicate-tool error) exactly when
the name is already present; a successful registration stores the
definition under its name and leaves every other name's lookup
unchanged; `Get` is a total lookup returning a found/not-found signal. -/
theorem registry_register_get (r : Registry) (t : ToolDefinition) :
    (r.Register t = .error ("tool '" ++ t.name ++ "' already registered")
       ↔ (r.Get t.name).isSome = true) ∧
    (∀ r', r.Register t = .ok r' →
       r'.Get t.name = some t ∧
       ∀ other, other ≠ t.name → r'.Get other = r.Get other) ∧
    (∀ name, r.Get name = none ∨ ∃ td, r.Get name = some td) := by
  refine ⟨?_, ?_, ?_⟩
  · unfold Registry.Register Registry.Get
    cases h : r.tools.lookup t.name with
    | none => simp [h]
    | some td => simp [h]
  · intro r' hok
    unfold Registry.Register at hok
    cases h : r.tools.lookup t.name with
    | none =>
      rw [h] at hok
      cases hok
      constructor
      · unfold Registry.Get
        simp [List.lookup]
      · intro other hne
        unfold Registry.Get
        have hbe : (other == t.name) = false := beq_eq_false_iff_ne.mpr hne
        simp [List.lookup, hbe]
    | some td =>
      rw [h] at hok
      cases hok
  · intro name
    cases h : r.Get name with
    | none => exact Or.inl rfl
    | some td => exact Or.inr ⟨td, rfl⟩

/-- C7 witness: registering a concrete tool in the empty registry
succeeds and is then found; re-registering it fails with the
duplicate-tool error. -/
theorem registry_register_get_witness :
    NewRegistry.Register tdReadFile = .ok regOne ∧
    regOne.Get "read_file" = some tdReadFile ∧
    regOne.Register tdReadFile = .error "tool 'read_file' already registered" := by
  refine ⟨rfl, ?_, ?_⟩
  · exact ((registry_register_get NewRegistry tdReadFile).2.1 regOne rfl).1
  · exact (registry_register_get regOne tdReadFile).1.mpr rfl


/-- When every call id in a batch is nonempty, no result is skipped:
the executor's message list is the positional image of the batch. -/
theorem executor_messages_map (e : ToolExecutor) (cancelled : Bool) :
    ∀ (calls : List ToolCall), (∀ tc ∈ calls, tc.callId ≠ "") →
      ((calls.map (e.execToolCall cancelled)).filterMap fun r =>
          if r.callID = "" then none
          else some (Message.tool (toolResultContent r) r.callID))
        = calls.map (fun tc =>
            Message.tool (toolResultContent (e.execToolCall cancelled tc)) tc.callId) := by
  intro calls
  induction calls with
  | nil => intro _; rfl
  | cons a rest ih =>
    intro h
    have ha : a.callId ≠ "" := h a (List.mem_cons_self a rest)
    have hid := ToolExecutor.execToolCall_callID e cancelled a
    rw [List.map_cons, List.filterMap_cons, List.map_cons]
    rw [hid, if_neg ha, ih (fun tc htc => h tc (List.mem_cons_of_mem a htc))]

/-- C1 (amended): for every batch whose tool calls all carry a nonempty
id, `ExecuteToolCalls` returns exactly one tool message per call, in the
original call order, each carrying its own call's id, whatever each call
resolves to; the empty batch yields the empty result and no error. -/
theorem executor_one_message_per_call (e : ToolExecutor) (cancelled : Bool)
    (toolCalls : List ToolCall) (h : ∀ tc ∈ toolCalls, tc.callId ≠ "") :
    (e.ExecuteToolCalls cancelled toolCalls).1
      = toolCalls.map (fun tc =>
          Message.tool (toolResultContent (e.execToolCall cancelled tc)) tc.callId) ∧
    (e.ExecuteToolCalls cancelled toolCalls).1.length = toolCalls.length ∧
    (e.ExecuteToolCalls cancelled ([] : List ToolCall)) = ([], none) := by
  have hmain : (e.ExecuteToolCalls cancelled toolCalls).1
      = toolCalls.map (fun tc =>
          Message.tool (toolResultContent (e.execToolCall cancelled tc)) tc.callId) := by
    unfold ToolExecutor.ExecuteToolCalls
    split
    · rename_i he
      rw [List.isEmpty_iff] at he
      simp [he]
    · exact executor_messages_map e cancelled toolCalls h
  refine ⟨hmain, ?_, rfl⟩
  rw [hmain, List.length_map]

/-- C1 witness: a resolvable call and a custom call, both with nonempty
ids, produce exactly their two messages in order. -/
theorem executor_one_message_per_call_witness :
    ((NewToolExecutor regOne 5).ExecuteToolCalls false
        [ToolCall.function "1" "read_file" "{}", ToolCall.custom "2" "weird"]).1
      = [Message.tool "hello world" "1",
         Message.tool "Error: unsupported custom tool call: weird" "2"] := by
  have h := executor_one_message_per_call (NewToolExecutor regOne 5) false
    [ToolCall.function "1" "read_file" "{}", ToolCall.custom "2" "weird"]
    (by decide)
  rw [h.1]
  rfl

/-- C1 counterexample: a single function tool call whose id is the empty
string yields zero messages, not one — the executor skips results with
an empty call id when converting to messages. -/
theorem executor_empty_id_drops_message :
    ((NewToolExecutor NewRegistry 5).ExecuteToolCalls false
        [ToolCall.function "" "read_file" "{}"]).1.length
      ≠ [ToolCall.function "" "read_file" "{}"].length := by
  decide

/-- C6 (amended): the executor's own error component is `none` for every
batch, and every per-call failure on a call with a nonempty id is
absorbed into that call's message as `Error: <message>` text. -/
theorem executor_absorbs_failures (e : ToolExecutor) (cancelled : Bool)
    (toolCalls : List ToolCall) :
    (e.ExecuteToolCalls cancelled toolCalls).2 = none ∧
    (∀ tc ∈ toolCalls, tc.callId ≠ "" →
      ∀ errText, (e.execToolCall cancelled tc).error = some errText →
        Message.tool ("Error: " ++ errText) tc.callId
          ∈ (e.ExecuteToolCalls cancelled toolCalls).1) := by
  constructor
  · unfold ToolExecutor.ExecuteToolCalls
    split <;> rfl
  · intro tc htc hid errText herr
    have hne : ¬ toolCalls.isEmpty := by
      cases toolCalls with
      | nil => cases htc
      | cons a rest => simp
    unfold ToolExecutor.ExecuteToolCalls
    rw [if_neg hne]
    simp only [List.mem_filterMap]
    refine ⟨e.execToolCall cancelled tc, List.mem_map_of_mem _ htc, ?_⟩
    rw [ToolExecutor.execToolCall_callID, if_neg hid]
    unfold toolResultContent
    rw [herr]

/-- C6 witness: a call to an unregistered tool with a nonempty id is
absorbed as an `Error:`-prefixed tool message. -/
theorem executor_absorbs_failures_witness :
    ((NewToolExecutor NewRegistry 5).ExecuteToolCalls false
        [ToolCall.function "7" "nope" "{}"]).2 = none ∧
    Message.tool "Error: tool 'nope' not found" "7"
      ∈ ((NewToolExecutor NewRegistry 5).ExecuteToolCalls false
          [ToolCall.function "7" "nope" "{}"]).1 := by
  have h := executor_absorbs_failures (NewToolExecutor NewRegistry 5) false
    [ToolCall.function "7" "nope" "{}"]
  exact ⟨h.1, h.2 (ToolCall.function "7" "nope" "{}") (by decide) (by decide)
    "tool 'nope' not found" rfl⟩

/-- C6 counterexample: a failing custom call with an empty id records a
per-call failure but produces no message at all, so the failure is not
absorbed into any corresponding message. -/
theorem executor_empty_id_failure_unabsorbed :
    ((NewToolExecutor NewRegistry 5).execToolCall false
        (ToolCall.custom "" "x")).error = some "unsupported custom tool call: x" ∧
    ((NewToolExecutor NewRegistry 5).ExecuteToolCalls false
        [ToolCall.custom "" "x"]).1 = [] := by
  decide


/-- The first branch condition of `analyzeStepType`: explicit final
keywords, or no tool calls and no "let me" in the lowered content. -/
def finalIndicator (r : Reply) : Bool :=
  isFinalAnswer r.content ||
    (r.toolCalls.length = 0 && !strContains (strToLower r.content) "let me")

/-- The second branch condition of `analyzeStepType`: thinking keywords. -/
def thoughtIndicator (content : String) : Bool :=
  strContains (strToLower content) "thinking" ||
    strContains (strToLower content) "thought:" ||
    strContains (strToLower content) "reason:"

/-- C5 (amended): the classification applies its rules in priority
order — `final` whenever the final indicators fire (explicit final
keywords even in the presence of tool calls, or no tool calls and no
"let me"); otherwise `thought` on thinking keywords; otherwise `action`
exactly when tool calls are present; `observation` only in the residual
case. -/
theorem analyze_step_type_priority (r : Reply) :
    (finalIndicator r = true → analyzeStepType r = .final) ∧
    (finalIndicator r = false → thoughtIndicator r.content = true →
      analyzeStepType r = .thought) ∧
    (finalIndicator r = false → thoughtIndicator r.content = false →
      r.toolCalls ≠ [] → analyzeStepType r = .action) ∧
    (finalIndicator r = false → thoughtIndicator r.content = false →
      r.toolCalls = [] → analyzeStepType r = .observation) := by
  have heq : analyzeStepType r =
      if finalIndicator r then .final
      else if thoughtIndicator r.content then .thought
      else if r.toolCalls.length > 0 then .action
      else .observation := rfl
  refine ⟨?_, ?_, ?_, ?_⟩
  · intro hf
    rw [heq]
    simp [hf]
  · intro hf ht
    rw [heq]
    simp [hf, ht]
  · intro hf ht hne
    have hlen : 0 < r.toolCalls.length := List.length_pos.mpr hne
    rw [heq]
    simp [hf, ht, hlen]
  · intro hf ht hnil
    rw [heq]
    simp [hf, ht, hnil]

/-- C5 witness: with tool calls present and no final/thought keyword,
the classification is `action`; with none of the indicators and no tool
calls, it is `observation`. -/
theorem analyze_step_type_priority_witness :
    analyzeStepType ⟨"let me see", [ToolCall.function "1" "read_file" "{}"]⟩
        = .action ∧
    analyzeStepType ⟨"let me see", []⟩ = .observation := by
  constructor
  · exact (analyze_step_type_priority
      ⟨"let me see", [ToolCall.function "1" "read_file" "{}"]⟩).2.2.1
      (by decide) (by decide) (by decide)
  · exact (analyze_step_type_priority ⟨"let me see", []⟩).2.2.2
      (by decide) (by decide) rfl

/-- C5 counterexample: a reply that carries a tool call but whose
content matches a final keyword is classified `final`, not `action` —
the final check precedes the tool-call check. -/
theorem analyze_step_type_tool_call_not_action :
    (⟨"Final answer: 42", [ToolCall.function "1" "read_file" "{}"]⟩ : Reply).toolCalls
        ≠ [] ∧
    analyzeStepType ⟨"Final answer: 42", [ToolCall.function "1" "read_file" "{}"]⟩
        = .final := by
  decide

/-- The loop of the reasoning driver: while the client keeps answering
with tool calls, every iteration consumes one inference invocation and
recurses, so the whole fuel is consumed and the step-budget failure is
returned with one invocation per fuel unit. -/
theorem chainLoop_exhausts (infer : Nat → List Message → Except String Reply)
    (e : ToolExecutor) (cancelled : Bool) (maxSteps : Int)
    (h : ∀ n ctx, ∃ r, infer n ctx = Except.ok r ∧ r.toolCalls ≠ []) :
    ∀ (fuel : Nat) (mem : Memory) (step : Nat),
      chainLoop infer e cancelled maxSteps mem step fuel
        = (("", some ("reasoning chain exceeded maximum steps ("
            ++ toString maxSteps ++ ")")), step + fuel) := by
  intro fuel
  induction fuel with
  | zero => intro mem step; rfl
  | succ fuel ih =>
    intro mem step
    obtain ⟨r, hr, hne⟩ := h step mem.Context
    have hemp : r.toolCalls.isEmpty = false := by
      simpa [List.isEmpty_iff] using hne
    unfold chainLoop
    rw [hr]
    simp only [hemp, Bool.false_eq_true, if_false]
    rw [ih]
    have : step + 1 + fuel = step + (fuel + 1) := by omega
    rw [this]

/-- C4: with a positive step budget `s` and an inference client that
returns tool calls on every step, the reasoning driver makes exactly
`s` inference invocations, returns empty answer text, and fails with
the exceeded-maximum-steps error. -/
theorem reasoning_exceeds_steps (s : Nat) (_hs : 0 < s)
    (infer : Nat → List Message → Except String Reply) (e : ToolExecutor)
    (cancelled : Bool) (mem : Memory) (userInput : String)
    (h : ∀ n ctx, ∃ r, infer n ctx = Except.ok r ∧ r.toolCalls ≠ []) :
    ReasoningChainExecute (s : Int) infer e cancelled mem userInput
      = (("", some ("reasoning chain exceeded maximum steps ("
          ++ toString (s : Int) ++ ")")), s) := by
  unfold ReasoningChainExecute
  rw [chainLoop_exhausts infer e cancelled (s : Int) h ((s : Int)).toNat _ 0]
  rw [Int.toNat_natCast]
  simp

/-- C4 witness: a stub client that always answers with one tool call,
`maxSteps = 3` — the driver fails with the exceeded-steps error after
exactly 3 inference invocations, returning empty answer text. -/
theorem reasoning_exceeds_steps_witness :
    ReasoningChainExecute 3
        (fun _ _ => Except.ok ⟨"", [ToolCall.function "1" "read_file" "{}"]⟩)
        (NewToolExecutor regOne 5) false (NewMemory 40) "hello"
      = (("", some "reasoning chain exceeded maximum steps (3)"), 3) := by
  have h := reasoning_exceeds_steps 3 (by norm_num)
    (fun _ _ => Except.ok ⟨"", [ToolCall.function "1" "read_file" "{}"]⟩)
    (NewToolExecutor regOne 5) false (NewMemory 40) "hello"
    (fun _ _ => ⟨⟨"", [ToolCall.function "1" "read_file" "{}"]⟩, rfl, by decide⟩)
  rw [show ((3 : Nat) : Int) = (3 : Int) by norm_num] at h
  rw [h]
  rfl


/-- A function call to an unregistered name contributes its
`Error: tool '<name>' not found` message during the first pass. -/
theorem agentFirstPass_not_found_mem (index : List (String × ToolDefinition)) :
    ∀ (calls : List ToolCall) (id name arguments : String),
      index.lookup name = none →
      ToolCall.function id name arguments ∈ calls →
      Message.tool ("Error: tool '" ++ name ++ "' not found") id
        ∈ agentFirstPassMessages index calls := by
  intro calls
  induction calls with
  | nil => intro id name arguments _ h; cases h
  | cons a rest ih =>
    intro id name arguments hlk hmem
    rcases List.mem_cons.mp hmem with heq | hmem'
    · rw [← heq]
      simp only [agentFirstPassMessages]
      rw [hlk]
      exact List.mem_cons_self _ _
    · cases a with
      | function id2 name2 arguments2 =>
        simp only [agentFirstPassMessages]
        cases hl2 : index.lookup name2 with
        | none => exact List.mem_cons_of_mem _ (ih id name arguments hlk hmem')
        | some td => exact ih id name arguments hlk hmem'
      | custom id2 name2 =>
        exact List.mem_cons_of_mem _ (ih id name arguments hlk hmem')
      | other id2 =>
        exact List.mem_cons_of_mem _ (ih id name arguments hlk hmem')

/-- C3 (amended): a tool call to an unregistered name never aborts the
turn — it yields the `Error: tool '<name>' not found` tool message under
its own call id (text starting with "Error: " and containing
"not found"), and the loop proceeds to a follow-up inference; the error
text is in the follow-up context provided the batch's messages fit the
memory capacity (an overlong batch can slide it out of the window). -/
theorem agent_unknown_tool_error_message (index : List (String × ToolDefinition))
    (mem : Memory) (reply : Reply) (id name arguments : String)
    (hlk : index.lookup name = none)
    (hmem : ToolCall.function id name arguments ∈ reply.toolCalls)
    (hcap : mem.maxHistory ≤ 0 ∨
      (mem.history.length + (agentToolMessages index reply.toolCalls).length : Int)
        ≤ mem.maxHistory) :
    (agentInnerStep index mem reply).2 = true ∧
    "Error: ".data <+: ("Error: tool '" ++ name ++ "' not found").data ∧
    strContains ("Error: tool '" ++ name ++ "' not found") "not found" = true ∧
    Message.tool ("Error: tool '" ++ name ++ "' not found") id
      ∈ ((agentInnerStep index mem reply).1).Context := by
  have hne : ¬ reply.toolCalls.isEmpty := by
    cases h : reply.toolCalls with
    | nil => rw [h] at hmem; cases hmem
    | cons a rest => simp
  have hstep1 : (agentInnerStep index mem reply).2 = true := by
    unfold agentInnerStep
    rw [if_neg hne]
  have hdata : ("Error: tool '" ++ name ++ "' not found").data
      = "Error: tool '".data ++ (name.data ++ "' not found".data) := by
    simp [String.data_append]
  refine ⟨hstep1, ?_, ?_, ?_⟩
  · rw [hdata]
    exact List.IsPrefix.trans (by decide) (List.prefix_append _ _)
  · simp only [strContains, decide_eq_true_eq]
    rw [hdata]
    have s1 : "not found".data <:+ "' not found".data := by decide
    have s2 : "' not found".data <:+ "Error: tool '".data
        ++ (name.data ++ "' not found".data) :=
      List.IsSuffix.trans (List.suffix_append _ _) (List.suffix_append _ _)
    exact List.IsSuffix.isInfix (s1.trans s2)
  · unfold agentInnerStep
    rw [if_neg hne]
    simp only
    unfold agentProcessToolCalls
    rw [Memory.context_eq]
    rw [Memory.foldl_append_system, Memory.foldl_append_history_no_trim _ _ hcap]
    refine List.mem_append.mpr (Or.inr (List.mem_append.mpr (Or.inr ?_)))
    unfold agentToolMessages
    exact List.mem_append.mpr (Or.inl
      (agentFirstPass_not_found_mem index reply.toolCalls id name arguments hlk hmem))

/-- C3 witness: a single call to an unknown tool in a fresh
capacity-40 memory — the loop re-queries and the error tool message
is in the follow-up context. -/
theorem agent_unknown_tool_error_message_witness :
    (agentInnerStep [] (NewMemory 40)
        ⟨"", [ToolCall.function "1" "bad_tool" "{}"]⟩).2 = true ∧
    Message.tool "Error: tool 'bad_tool' not found" "1"
      ∈ ((agentInnerStep [] (NewMemory 40)
          ⟨"", [ToolCall.function "1" "bad_tool" "{}"]⟩).1).Context := by
  have h := agent_unknown_tool_error_message [] (NewMemory 40)
    ⟨"", [ToolCall.function "1" "bad_tool" "{}"]⟩ "1" "bad_tool" "{}"
    rfl (by decide) (by right; decide)
  exact ⟨h.1, h.2.2.2⟩

/-- A batch of 42 distinct calls to one unregistered name, ids
`"x"`, `"xx"`, …; all 42 error messages are appended, so the default
capacity 40 slides the first two out of the context window. -/
def unknownBatch : List ToolCall :=
  (List.range 42).map fun i =>
    ToolCall.function (String.mk (List.replicate (i + 1) 'x')) "t0" "{}"

set_option maxRecDepth 16384 in
/-- C3 counterexample: with the orchestrator's capacity-40 memory and a
42-call batch of unknown-tool calls, the first call's error message is
produced but trimmed out of the follow-up context, so the claim's
"error text in context" fails as stated for that call. -/
theorem agent_unknown_tool_trimmed_from_context :
    ToolCall.function "x" "t0" "{}" ∈ unknownBatch ∧
    (List.lookup "t0" ([] : List (String × ToolDefinition))) = none ∧
    (agentInnerStep [] (NewMemory 40) ⟨"", unknownBatch⟩).2 = true ∧
    Message.tool "Error: tool 't0' not found" "x"
      ∉ ((agentInnerStep [] (NewMemory 40) ⟨"", unknownBatch⟩).1).Context := by
  refine ⟨by decide, rfl, by decide, by decide⟩


end GoCopilot
